import Mathlib

/-!
Verification development for the mongoose-taggable plugin (lib/index.js).

Strings are modelled as lists of characters (Str).  The JavaScript word
regex \w matches exactly [A-Za-z0-9_] (non-unicode mode), lodash toLower
lowercases via String.prototype.toLowerCase (ASCII on the inputs that
occur here), lodash compact drops falsy entries (for strings: the empty
string), lodash uniq keeps the first occurrence of each value, and lodash
difference l d keeps the elements of l not occurring in d, in order.
JS String(array) joins the elements with ',' and Array.join(' ') joins
with ' '.  The multi-language stopword corpus (npm package stopwords-iso,
flattened) is external data and is threaded through as an explicit list
parameter sw.
-/

namespace Taggable

abbrev Str := List Char

/-- A JS word character: the regex \w, i.e. [A-Za-z0-9_]. -/
def isWordChar (c : Char) : Bool :=
  (('A' ≤ c && c ≤ 'Z') || ('a' ≤ c && c ≤ 'z') || ('0' ≤ c && c ≤ '9') || c == '_')

/-- Lowercasing of a string, character by character (String.prototype.toLowerCase
on the ASCII range, which is what Char.toLower implements). -/
def lowerStr (s : Str) : Str := s.map Char.toLower

/-- Helper for words: acc is the reversed current run of word characters. -/
def wordsAux (acc : Str) : Str → List Str
  | [] => if acc = [] then [] else [acc.reverse]
  | c :: rest =>
      if isWordChar c then wordsAux (c :: acc) rest
      else if acc = [] then wordsAux [] rest
      else acc.reverse :: wordsAux [] rest

/-- The source function words: extract the maximal runs of word characters
of a phrase, i.e. String(phrase).match(/\w+/g).  A falsy (empty) phrase
yields []; a phrase with no word characters yields the empty token list
(the JS code returns null there, which every caller flattens away). -/
def words (phrase : Str) : List Str := wordsAux [] phrase

/-- Join a list of strings with a separator character; [].join is "". -/
def joinSep (sep : Char) : List Str → Str
  | [] => []
  | s :: rest =>
      match rest with
      | [] => s
      | _ :: _ => s ++ sep :: joinSep sep rest

/-- lodash uniq: keep the first occurrence of every value.  seen holds the
values already emitted. -/
def uniqAux {α : Type _} [DecidableEq α] (seen : List α) : List α → List α
  | [] => []
  | a :: rest =>
      if a ∈ seen then uniqAux seen rest else a :: uniqAux (a :: seen) rest

/-- lodash uniq (first-seen order). -/
def uniqFS {α : Type _} [DecidableEq α] (l : List α) : List α := uniqAux [] l

/-- lodash difference: the elements of l not present in d, in order. -/
def listDiff (l d : List Str) : List Str := l.filter fun t => decide (t ∉ d)

/-- Decimal digits of a natural number, as a Str. -/
def natToStr (n : Nat) : Str := (Nat.repr n).data

/-- JS String(n) for an integer. -/
def intToStr (n : Int) : Str :=
  if n < 0 then '-' :: natToStr n.natAbs else natToStr n.natAbs

/-- The source function removeStopwords(...phrases): join the phrases with
a space, re-extract the words, and remove every word present in the
flattened stopwords-iso corpus sw (lodash difference). -/
def removeStopwords (sw : List Str) (phrases : List Str) : List Str :=
  listDiff (words (joinSep ' ' phrases)) sw

/-- The source function normalizeTags(...tags) applied to a spread list of
strings: compact (drop falsy, i.e. empty, entries), lowercase each entry,
split each entry into words, flatten, and uniq.  The current source keeps
no stopword or blacklist logic here. -/
def normalizeTags (tags : List Str) : List Str :=
  uniqFS ((((tags.filter fun t => decide (t ≠ [])).map lowerStr).map words).flatten)

/-- The source function normalizeTags applied to a single ARRAY argument,
as removeBlacklist does with the accumulated phrase list: the array is one
truthy entry, lodash toLower stringifies it (JS joins array elements with
','), then the joined string is lowercased, split into words and uniq'd. -/
def normalizeTagsArr (arr : List Str) : List Str :=
  uniqFS (words (lowerStr (joinSep ',' arr)))

/-- The source function removeBlacklist(phrase, ...blacklist): normalize
the blacklist (spread) and the phrase (single array argument), and return
their lodash difference (phrase minus blacklist). -/
def removeBlacklist (phrase : List Str) (blacklist : List Str) : List Str :=
  listDiff (normalizeTagsArr phrase) (normalizeTags blacklist)

/-- All tokens of a list of candidate strings: lowercase each candidate
and split it into words, flattened.  Normal form used by the lemmas below;
both normalizeTags and normalizeTagsArr are uniqFS of this. -/
def tokens (l : List Str) : List Str :=
  (l.map fun s => words (lowerStr s)).flatten

/-- Weekday names as produced by the moment format token dddd; Zeller
index 0 is Saturday. -/
def weekdayName : Nat → Str
  | 0 => "Saturday".data
  | 1 => "Sunday".data
  | 2 => "Monday".data
  | 3 => "Tuesday".data
  | 4 => "Wednesday".data
  | 5 => "Thursday".data
  | 6 => "Friday".data
  | _ => []

/-- Month names as produced by the moment format token MMMM (month 1-12). -/
def monthName : Nat → Str
  | 1 => "January".data
  | 2 => "February".data
  | 3 => "March".data
  | 4 => "April".data
  | 5 => "May".data
  | 6 => "June".data
  | 7 => "July".data
  | 8 => "August".data
  | 9 => "September".data
  | 10 => "October".data
  | 11 => "November".data
  | 12 => "December".data
  | _ => []

/-- Day of week of a Gregorian calendar date by Zeller's congruence:
0 = Saturday, 1 = Sunday, ..., 6 = Friday. -/
def dayOfWeek (year month day : Nat) : Nat :=
  let m := if month ≤ 2 then month + 12 else month
  let y := if month ≤ 2 then year - 1 else year
  let k := y % 100
  let j := y / 100
  (day + (13 * (m + 1)) / 5 + k + k / 4 + j / 4 + 5 * j) % 7

/-- Modelled from the source's moment(value).format(DATE_FORMAT) with the
default TAGGABLE_DATE_FORMAT pattern dddd MMMM YYYY (full weekday, full
month, year), e.g. Saturday January 2000.  The environment override of the
pattern is configuration glue and is not modelled. -/
def formatDate (year month day : Nat) : Str :=
  weekdayName (dayOfWeek year month day) ++ ' ' :: monthName month
    ++ ' ' :: natToStr year

/-- The raw value handed to a per-field tag extractor: a string, a number,
or an array of strings. -/
inductive RawVal where
  | strV (s : Str)
  | numV (n : Int)
  | listV (l : List Str)

/-- A per-field tag extractor, as stored in the taggable-field registry. -/
def ExtractFn : Type := RawVal → List Str

/-- The default extractor: the source function words applied to the raw
value.  JS String() renders a number in decimal (0 is falsy, so words
returns no tokens for it) and joins an array with ','. -/
def wordsExt : ExtractFn
  | .strV s => words s
  | .numV n => if n = 0 then [] else words (intToStr n)
  | .listV l => words (joinSep ',' l)

/-- Plugin options, mirroring the option object the plugin merges.  The
blacklist field is the merged TAGGABLE_BLACKLIST environment list plus the
per-attachment option list. -/
structure TagConfig where
  path : Str
  blacklist : List Str
  fresh : Bool
  hook : Str
  index : Bool
  duplicate : Bool
  searchable : Bool
  exportable : Bool
  hide : Bool

/-- The source constant defaultTaggableOptions (with blacklist [] standing
for the merge of an empty environment blacklist and no option). -/
def defaultTaggableOptions : TagConfig where
  path := "tags".data
  blacklist := []
  fresh := false
  hook := "validate".data
  index := true
  duplicate := false
  searchable := true
  exportable := false
  hide := true

/-- The taggable marking of a schema path: absent/falsy, true, or a custom
extractor function. -/
inductive TaggableOpt where
  | notTaggable
  | marked
  | custom (f : ExtractFn)

/-- A schema path together with its taggable option. -/
structure SchemaPath where
  name : Str
  taggable : TaggableOpt

/-- The source function collectTaggables: walk the schema paths in order
and collect every path whose options mark it taggable and whose name is
not the tags path; a function-valued taggable option becomes the path's
extractor, otherwise the default extractor is words. -/
def collectTaggables (schema : List SchemaPath) (tagsPath : Str) :
    List (Str × ExtractFn) :=
  match schema with
  | [] => []
  | p :: rest =>
      let taggables := collectTaggables rest tagsPath
      match p.taggable with
      | .notTaggable => taggables
      | .marked => if p.name = tagsPath then taggables else (p.name, wordsExt) :: taggables
      | .custom f => if p.name = tagsPath then taggables else (p.name, f) :: taggables

mutual
/-- A mongoose value sitting at a record field: absent, an unresolved
ObjectId reference, a string, a number, an array of strings, a date, a
map (represented by its string leaves in traversal order), or a populated
model instance (itself a taggable record). -/
inductive FieldValue : Type where
  | missing : FieldValue
  | objectId : FieldValue
  | strV (s : Str) : FieldValue
  | numV (n : Int) : FieldValue
  | arrV (l : List Str) : FieldValue
  | dateV (year month day : Nat) : FieldValue
  | mapV (leaves : List Str) : FieldValue
  | instV (r : Record) : FieldValue
/-- A record carries its plugin configuration, its taggable-field
registry, its tag field (none models undefined), and its named fields. -/
inductive Record : Type where
  | mk (cfg : TagConfig) (taggables : List (Str × ExtractFn))
       (tags : Option (List Str)) (fields : List (Str × FieldValue)) : Record
end

/-- The plugin configuration of a record. -/
def Record.cfg : Record → TagConfig
  | .mk c _ _ _ => c

/-- The taggable-field registry of a record. -/
def Record.taggables : Record → List (Str × ExtractFn)
  | .mk _ t _ _ => t

/-- The tag field of a record (none models undefined). -/
def Record.tags : Record → Option (List Str)
  | .mk _ _ t _ => t

/-- The named fields of a record. -/
def Record.fields : Record → List (Str × FieldValue)
  | .mk _ _ _ f => f

/-- lodash get of a named field; an absent path is undefined. -/
def getField (fields : List (Str × FieldValue)) (name : Str) : FieldValue :=
  match fields with
  | [] => .missing
  | (n, v) :: rest => if n = name then v else getField rest name

/-- mongoose-common isObjectId on a field value. -/
def isObjectIdF : FieldValue → Bool
  | .objectId => true
  | _ => false

/-- The source function tagFromMapField: for a map value, visit every
string leaf and apply the extractor; any other value yields nothing. -/
def tagFromMapField (v : FieldValue) (ext : ExtractFn) : List Str :=
  match v with
  | .mapV leaves => (leaves.map fun s => ext (.strV s)).flatten
  | _ => []

/-- The source function tagFromDateField: for a date value, format it with
the (default) date format into one phrase and apply the extractor; any
other value yields nothing. -/
def tagFromDateField (v : FieldValue) (ext : ExtractFn) : List Str :=
  match v with
  | .dateV y m d => ext (.strV (formatDate y m d))
  | _ => []

/-- The source function tagFromAnyField: for a truthy string, number or
array value, apply the extractor; any other value yields nothing (the
empty string and 0 are falsy, an array is always truthy). -/
def tagFromAnyField (v : FieldValue) (ext : ExtractFn) : List Str :=
  match v with
  | .strV s => if s = [] then [] else ext (.strV s)
  | .numV n => if n = 0 then [] else ext (.numV n)
  | .arrV l => ext (.listV l)
  | _ => []

theorem sizeOf_getField_le (fields : List (Str × FieldValue)) (name : Str) :
    sizeOf (getField fields name) ≤ sizeOf fields := by
  induction fields with
  | nil => simp [getField]
  | cons p rest ih =>
      obtain ⟨n, v⟩ := p
      simp only [getField]
      split
      · simp; omega
      · simp; omega

mutual

/-- The source function tagFromInstanceField: for a populated model
instance exposing a tag method, invoke its tag() (which computes and
stores its canonical tags), harvest the resulting tags array, and apply
the extractor; any other value yields nothing. -/
def tagFromInstanceField (sw : List Str) (v : FieldValue) (ext : ExtractFn) :
    List Str :=
  match v with
  | .instV r => ext (.listV (tagCompute sw r []))
  | _ => []
termination_by sizeOf v

/-- The source function tagFromFields: walk the taggable registry in
order; read each field, skip ObjectId values entirely, and otherwise
concatenate the map, instance, date and primitive extractions. -/
def tagFromFields (sw : List Str) (taggables : List (Str × ExtractFn))
    (fields : List (Str × FieldValue)) : List Str :=
  match taggables with
  | [] => []
  | (pathName, extract) :: rest =>
      let value := getField fields pathName
      (if isObjectIdF value then [] else
        tagFromMapField value extract
        ++ tagFromInstanceField sw value extract
        ++ tagFromDateField value extract
        ++ tagFromAnyField value extract)
      ++ tagFromFields sw rest fields
termination_by sizeOf taggables + sizeOf fields
decreasing_by
  · have h := sizeOf_getField_le fields pathName
    simp only [List.cons.sizeOf_spec, Prod.mk.sizeOf_spec]
    omega
  · simp only [List.cons.sizeOf_spec, Prod.mk.sizeOf_spec]
    omega

/-- The tag set computed by the schema method tag(...tags): start from the
existing tag field (or from empty in fresh mode), append the explicit
tags, append the candidates mined from the taggable fields, subtract the
blacklist (removeBlacklist), then subtract the stopwords
(removeStopwords). -/
def tagCompute (sw : List Str) (r : Record) (explicit : List Str) : List Str :=
  match r with
  | .mk cfg taggables tags fields =>
      let oldTags := tags.getD []
      let t0 := if cfg.fresh then [] else oldTags
      let t1 := t0 ++ explicit
      let t2 := t1 ++ tagFromFields sw taggables fields
      let t3 := removeBlacklist t2 cfg.blacklist
      removeStopwords sw t3
termination_by sizeOf r

end

/-- The schema method tag(...tags): compute the tag set and overwrite the
record's tag field with it (the only mutation tag performs). -/
def Record.tag (sw : List Str) (r : Record) (explicit : List Str) : Record :=
  match r with
  | .mk cfg taggables tags fields =>
      .mk cfg taggables (some (tagCompute sw (.mk cfg taggables tags fields) explicit)) fields

/-- The schema method untag(...tags): normalize the provided tags and
overwrite the tag field with the lodash difference of the current tag
field minus them (difference of undefined is the empty array). -/
def Record.untag (r : Record) (tags : List Str) : Record :=
  match r with
  | .mk cfg taggables cur fields =>
      .mk cfg taggables (some (listDiff (cur.getD []) (normalizeTags tags))) fields

/-- An observable action tag() performs on its own record: reading a path
or writing a value to a path. -/
inductive Action where
  | readA (p : Str)
  | writeA (p : Str) (v : List Str)

/-- Whether an action is a write. -/
def isWriteA : Action → Bool
  | .writeA _ _ => true
  | _ => false

/-- Executing one action against the record: a read leaves it unchanged, a
write stores the value into the tag field. -/
def applyAction (r : Record) (a : Action) : Record :=
  match a, r with
  | .readA _, r => r
  | .writeA _ v, .mk cfg tg _ fields => .mk cfg tg (some v) fields

/-- Executing a list of actions in order. -/
def applyTrace (r : Record) (l : List Action) : Record := l.foldl applyAction r

/-- The trace of actions tag() performs on its own record, in source
order: it reads the existing tag field first, then reads each registered
taggable field while mining candidates, and only then - after the full
candidate list has been computed and filtered - writes the result to the
tag field.  Actions performed on other records (a populated instance
being asked for its own tags) are not actions on this record. -/
def tagTrace (sw : List Str) (r : Record) (explicit : List Str) : List Action :=
  match r with
  | .mk cfg tg tags fields =>
      .readA cfg.path :: ((tg.map fun e => Action.readA e.1)
        ++ [.writeA cfg.path (tagCompute sw (.mk cfg tg tags fields) explicit)])

/-! ### Character lemmas -/

theorem char_ofNat_toNat {n : Nat} (hv : n.isValidChar) :
    (Char.ofNat n).toNat = n := by
  simp [Char.ofNat, hv, Char.ofNatAux, Char.toNat, UInt32.toNat, BitVec.toNat_ofNatLt]

theorem char_toLower_idem (c : Char) : c.toLower.toLower = c.toLower := by
  unfold Char.toLower
  by_cases h : c.toNat ≥ 65 ∧ c.toNat ≤ 90
  · have hv : (c.toNat + 32).isValidChar := Or.inl (by omega)
    have hn : (Char.ofNat (c.toNat + 32)).toNat = c.toNat + 32 := char_ofNat_toNat hv
    have h2 : ¬ ((Char.ofNat (c.toNat + 32)).toNat ≥ 65 ∧
        (Char.ofNat (c.toNat + 32)).toNat ≤ 90) := by
      rw [hn]; omega
    simp only [h, and_self, if_true, h2, if_false]
  · simp [h]

/-! ### uniq lemmas -/

section Uniq

variable {α : Type _} [DecidableEq α]

theorem mem_uniqAux {x : α} {seen l : List α} :
    x ∈ uniqAux seen l ↔ x ∈ l ∧ x ∉ seen := by
  induction l generalizing seen with
  | nil => simp [uniqAux]
  | cons a rest ih =>
      by_cases ha : a ∈ seen
      · simp only [uniqAux, if_pos ha, ih, List.mem_cons]
        constructor
        · rintro ⟨hx, hs⟩; exact ⟨Or.inr hx, hs⟩
        · rintro ⟨hx | hx, hs⟩
          · exact absurd (hx ▸ ha) hs
          · exact ⟨hx, hs⟩
      · simp only [uniqAux, if_neg ha, List.mem_cons, ih]
        constructor
        · rintro (rfl | ⟨hx, hs⟩)
          · exact ⟨Or.inl rfl, ha⟩
          · simp only [List.mem_cons, not_or] at hs
            exact ⟨Or.inr hx, hs.2⟩
        · rintro ⟨hx | hx, hs⟩
          · exact Or.inl hx
          · by_cases hxa : x = a
            · exact Or.inl hxa
            · exact Or.inr ⟨hx, by simp [hxa, hs]⟩

theorem uniqAux_congr {seen seen' l : List α}
    (h : ∀ x ∈ l, x ∈ seen ↔ x ∈ seen') :
    uniqAux seen l = uniqAux seen' l := by
  induction l generalizing seen seen' with
  | nil => simp [uniqAux]
  | cons a rest ih =>
      have ha := h a (List.mem_cons_self a rest)
      by_cases h1 : a ∈ seen
      · rw [uniqAux, if_pos h1, uniqAux, if_pos (ha.mp h1)]
        exact ih fun x hx => h x (List.mem_cons_of_mem a hx)
      · rw [uniqAux, if_neg h1, uniqAux, if_neg (fun h' => h1 (ha.mpr h'))]
        congr 1
        exact ih fun x hx => by
          simp only [List.mem_cons, h x (List.mem_cons_of_mem a hx)]

theorem uniqAux_nodup (seen l : List α) : (uniqAux seen l).Nodup := by
  induction l generalizing seen with
  | nil => simp [uniqAux]
  | cons a rest ih =>
      by_cases ha : a ∈ seen
      · rw [uniqAux, if_pos ha]; exact ih seen
      · rw [uniqAux, if_neg ha]
        refine List.nodup_cons.mpr ⟨?_, ih (a :: seen)⟩
        intro hmem
        exact (mem_uniqAux.mp hmem).2 (List.mem_cons_self a seen)

theorem uniqAux_filter (p : α → Bool) (seen l : List α) :
    uniqAux seen (l.filter p) = (uniqAux seen l).filter p := by
  induction l generalizing seen with
  | nil => simp [uniqAux]
  | cons a rest ih =>
      by_cases hp : p a
      · by_cases ha : a ∈ seen
        · rw [List.filter_cons_of_pos hp, uniqAux, if_pos ha, uniqAux, if_pos ha, ih]
        · rw [List.filter_cons_of_pos hp, uniqAux, if_neg ha, uniqAux, if_neg ha,
            List.filter_cons_of_pos hp, ih]
      · have hp' : p a = false := by simp_all
        rw [List.filter_cons_of_neg (by simp [hp'])]
        by_cases ha : a ∈ seen
        · rw [uniqAux, if_pos ha, ih]
        · rw [uniqAux, if_neg ha, List.filter_cons_of_neg (by simp [hp']), ← ih]
          refine (uniqAux_congr fun x hx => ?_)
          have hne : x ≠ a := by
            intro hxa
            have hmem := (List.mem_filter.mp hx).2
            rw [hxa, hp'] at hmem
            exact Bool.false_ne_true hmem
          simp [List.mem_cons, hne]

theorem uniqAux_absorb (seen : List α) (x m : List α) :
    uniqAux seen (uniqAux seen x ++ m) = uniqAux seen (x ++ m) := by
  induction x generalizing seen with
  | nil => simp [uniqAux]
  | cons a rest ih =>
      by_cases ha : a ∈ seen
      · simp only [uniqAux, if_pos ha, List.cons_append]
        rw [ih]; rfl
      · simp only [uniqAux, if_neg ha, List.cons_append]
        rw [ih]; rfl

theorem uniqAux_eq_nil_of_sub (seen : List α) :
    ∀ m : List α, (∀ x ∈ m, x ∈ seen) → uniqAux seen m = []
  | [], _ => rfl
  | a :: rest, h => by
      rw [uniqAux, if_pos (h a (List.mem_cons_self a rest))]
      exact uniqAux_eq_nil_of_sub seen rest fun x hx => h x (List.mem_cons_of_mem a hx)

theorem uniqAux_append_of_sub :
    ∀ (seen l m : List α), (∀ x ∈ m, x ∈ l ∨ x ∈ seen) →
      uniqAux seen (l ++ m) = uniqAux seen l
  | seen, [], m, h => by
      simp only [List.nil_append, uniqAux]
      exact uniqAux_eq_nil_of_sub seen m fun x hx => (h x hx).resolve_left (by simp)
  | seen, a :: rest, m, h => by
      by_cases ha : a ∈ seen
      · rw [List.cons_append, uniqAux, if_pos ha, uniqAux, if_pos ha]
        refine uniqAux_append_of_sub seen rest m fun x hx => ?_
        rcases h x hx with h' | h'
        · rcases List.mem_cons.mp h' with rfl | h''
          · exact Or.inr ha
          · exact Or.inl h''
        · exact Or.inr h'
      · rw [List.cons_append, uniqAux, if_neg ha, uniqAux, if_neg ha]
        congr 1
        refine uniqAux_append_of_sub (a :: seen) rest m fun x hx => ?_
        rcases h x hx with h' | h'
        · rcases List.mem_cons.mp h' with rfl | h''
          · exact Or.inr (List.mem_cons_self _ seen)
          · exact Or.inl h''
        · exact Or.inr (List.mem_cons_of_mem a h')

theorem mem_uniqFS {x : α} {l : List α} : x ∈ uniqFS l ↔ x ∈ l := by
  simp [uniqFS, mem_uniqAux]

theorem uniqFS_nodup (l : List α) : (uniqFS l).Nodup := uniqAux_nodup [] l

theorem uniqFS_filter (p : α → Bool) (l : List α) :
    uniqFS (l.filter p) = (uniqFS l).filter p := uniqAux_filter p [] l

theorem uniqFS_absorb (x m : List α) :
    uniqFS (uniqFS x ++ m) = uniqFS (x ++ m) := uniqAux_absorb [] x m

theorem uniqFS_append_of_sub (l m : List α) (h : ∀ x ∈ m, x ∈ l) :
    uniqFS (l ++ m) = uniqFS l :=
  uniqAux_append_of_sub [] l m fun x hx => Or.inl (h x hx)

end Uniq

/-! ### Tokenizer lemmas -/

theorem wordsAux_append_sep (c : Char) (hc : isWordChar c = false) :
    ∀ (a acc b : Str), wordsAux acc (a ++ c :: b) = wordsAux acc a ++ words b
  | [], acc, b => by
      by_cases hacc : acc = []
      · simp [wordsAux, hc, hacc, words]
      · simp [wordsAux, hc, hacc, words]
  | d :: a', acc, b => by
      by_cases hd : isWordChar d
      · simp only [List.cons_append, wordsAux, hd, if_true]
        exact wordsAux_append_sep c hc a' (d :: acc) b
      · by_cases hacc : acc = []
        · simp only [List.cons_append, wordsAux, hd, if_false, hacc, if_true,
            Bool.false_eq_true]
          exact wordsAux_append_sep c hc a' [] b
        · simp only [List.cons_append, wordsAux, hd, if_false, hacc,
            Bool.false_eq_true, List.cons_append]
          exact congrArg _ (wordsAux_append_sep c hc a' [] b)

theorem wordsAux_tokens :
    ∀ (s acc : Str), (∀ c ∈ acc, isWordChar c = true) →
      ∀ t ∈ wordsAux acc s, t ≠ [] ∧ ∀ ch ∈ t, isWordChar ch = true ∧ (ch ∈ acc ∨ ch ∈ s)
  | [], acc, hacc, t, ht => by
      by_cases h : acc = []
      · simp [wordsAux, h] at ht
      · simp only [wordsAux, h, if_false] at ht
        simp only [List.mem_singleton] at ht
        subst ht
        refine ⟨by simpa using h, fun ch hch => ?_⟩
        rw [List.mem_reverse] at hch
        exact ⟨hacc ch hch, Or.inl hch⟩
  | c :: rest, acc, hacc, t, ht => by
      by_cases hw : isWordChar c
      · rw [wordsAux, if_pos hw] at ht
        have hacc' : ∀ c' ∈ c :: acc, isWordChar c' = true := by
          intro c' hc'
          rcases List.mem_cons.mp hc' with rfl | hc'
          · exact hw
          · exact hacc c' hc'
        obtain ⟨h1, h2⟩ := wordsAux_tokens rest (c :: acc) hacc' t ht
        refine ⟨h1, fun ch hch => ?_⟩
        obtain ⟨hw', hm⟩ := h2 ch hch
        refine ⟨hw', ?_⟩
        rcases hm with hm | hm
        · rcases List.mem_cons.mp hm with rfl | hm
          · exact Or.inr (List.mem_cons_self _ _)
          · exact Or.inl hm
        · exact Or.inr (List.mem_cons_of_mem _ hm)
      · rw [wordsAux, if_neg hw] at ht
        by_cases h : acc = []
        · rw [if_pos h] at ht
          obtain ⟨h1, h2⟩ := wordsAux_tokens rest [] (by simp) t ht
          refine ⟨h1, fun ch hch => ?_⟩
          obtain ⟨hw', hm⟩ := h2 ch hch
          exact ⟨hw', Or.inr (List.mem_cons_of_mem _ (hm.resolve_left (by simp)))⟩
        · rw [if_neg h] at ht
          rcases List.mem_cons.mp ht with rfl | ht
          · refine ⟨by simpa using h, fun ch hch => ?_⟩
            rw [List.mem_reverse] at hch
            exact ⟨hacc ch hch, Or.inl hch⟩
          · obtain ⟨h1, h2⟩ := wordsAux_tokens rest [] (by simp) t ht
            refine ⟨h1, fun ch hch => ?_⟩
            obtain ⟨hw', hm⟩ := h2 ch hch
            exact ⟨hw', Or.inr (List.mem_cons_of_mem _ (hm.resolve_left (by simp)))⟩

theorem words_tokens (s : Str) :
    ∀ t ∈ words s, t ≠ [] ∧ ∀ ch ∈ t, isWordChar ch = true ∧ ch ∈ s := by
  intro t ht
  obtain ⟨h1, h2⟩ := wordsAux_tokens s [] (by simp) t ht
  exact ⟨h1, fun ch hch =>
    ⟨(h2 ch hch).1, ((h2 ch hch).2).resolve_left (by simp)⟩⟩

theorem wordsAux_allWord :
    ∀ (s acc : Str), (∀ ch ∈ s, isWordChar ch = true) →
      wordsAux acc s = if acc.reverse ++ s = [] then [] else [acc.reverse ++ s]
  | [], acc, _ => by
      by_cases h : acc = []
      · simp [wordsAux, h]
      · simp [wordsAux, h]
  | c :: rest, acc, h => by
      have hw : isWordChar c = true := h c (List.mem_cons_self _ _)
      rw [wordsAux, if_pos hw,
        wordsAux_allWord rest (c :: acc) (fun ch hch => h ch (List.mem_cons_of_mem _ hch))]
      simp

theorem words_allWord (s : Str) (h : ∀ ch ∈ s, isWordChar ch = true) (hs : s ≠ []) :
    words s = [s] := by
  rw [words, wordsAux_allWord s [] h]
  simp [hs]

theorem words_joinSep (sep : Char) (hsep : isWordChar sep = false) :
    ∀ l : List Str, words (joinSep sep l) = (l.map words).flatten
  | [] => by simp [joinSep, words, wordsAux]
  | [s] => by simp [joinSep]
  | s :: s' :: rest => by
      show words (s ++ sep :: joinSep sep (s' :: rest)) = _
      rw [words, wordsAux_append_sep sep hsep s [] _]
      rw [show wordsAux [] s = words s from rfl]
      rw [words_joinSep sep hsep (s' :: rest)]
      simp

theorem words_joinSep_canonical (sep : Char) (hsep : isWordChar sep = false)
    (ts : List Str) (h : ∀ t ∈ ts, t ≠ [] ∧ ∀ ch ∈ t, isWordChar ch = true) :
    words (joinSep sep ts) = ts := by
  rw [words_joinSep sep hsep]
  induction ts with
  | nil => rfl
  | cons t rest ih =>
      have ht := h t (List.mem_cons_self _ _)
      rw [List.map_cons, List.flatten_cons, words_allWord t ht.2 ht.1]
      rw [ih fun t' ht' => h t' (List.mem_cons_of_mem _ ht')]
      rfl

/-! ### Lowercasing and token normal forms -/

theorem lowerStr_joinSep (sep : Char) (hsep : sep.toLower = sep) (l : List Str) :
    lowerStr (joinSep sep l) = joinSep sep (l.map lowerStr) := by
  match l with
  | [] => rfl
  | [s] => rfl
  | s :: s' :: rest =>
      have ih := lowerStr_joinSep sep hsep (s' :: rest)
      calc lowerStr (s ++ sep :: joinSep sep (s' :: rest))
          = lowerStr s ++ sep :: lowerStr (joinSep sep (s' :: rest)) := by
            simp [lowerStr, hsep]
        _ = lowerStr s ++ sep :: joinSep sep (List.map lowerStr (s' :: rest)) := by
            rw [ih]
        _ = joinSep sep (List.map lowerStr (s :: s' :: rest)) := rfl

theorem lowerStr_id_of_stable (t : Str) (h : ∀ ch ∈ t, ch.toLower = ch) :
    lowerStr t = t := by
  rw [lowerStr, List.map_congr_left h]
  exact List.map_id t

/-- A canonical tag: nonempty, made of word characters only, and stable
under lowercasing. -/
def isCanonicalTag (t : Str) : Prop :=
  t ≠ [] ∧ ∀ ch ∈ t, isWordChar ch = true ∧ ch.toLower = ch

theorem tokens_append (l m : List Str) : tokens (l ++ m) = tokens l ++ tokens m := by
  simp [tokens]

theorem mem_tokens_canonical {l : List Str} : ∀ t ∈ tokens l, isCanonicalTag t := by
  intro t ht
  simp only [tokens, List.mem_flatten, List.mem_map] at ht
  obtain ⟨w, ⟨s, hs, rfl⟩, htw⟩ := ht
  obtain ⟨h1, h2⟩ := words_tokens (lowerStr s) t htw
  refine ⟨h1, fun ch hch => ?_⟩
  obtain ⟨hw, hm⟩ := h2 ch hch
  refine ⟨hw, ?_⟩
  simp only [lowerStr, List.mem_map] at hm
  obtain ⟨c', _, rfl⟩ := hm
  exact char_toLower_idem c'

theorem canonical_words_joinSep {ts : List Str} (sep : Char)
    (hsep : isWordChar sep = false) (h : ∀ t ∈ ts, isCanonicalTag t) :
    words (joinSep sep ts) = ts :=
  words_joinSep_canonical sep hsep ts fun t ht =>
    ⟨(h t ht).1, fun ch hch => ((h t ht).2 ch hch).1⟩

theorem canonical_tokens_id {ts : List Str} (h : ∀ t ∈ ts, isCanonicalTag t) :
    tokens ts = ts := by
  induction ts with
  | nil => rfl
  | cons t rest ih =>
      have ht := h t (List.mem_cons_self _ _)
      show words (lowerStr t) ++ tokens rest = t :: rest
      rw [lowerStr_id_of_stable t fun ch hch => (ht.2 ch hch).2,
        words_allWord t (fun ch hch => (ht.2 ch hch).1) ht.1,
        ih fun t' ht' => h t' (List.mem_cons_of_mem _ ht')]
      rfl

theorem normalizeTags_eq_tokens (l : List Str) :
    normalizeTags l = uniqFS (tokens l) := by
  rw [normalizeTags, tokens]
  congr 1
  rw [List.map_map]
  induction l with
  | nil => rfl
  | cons t rest ih =>
      by_cases h : t = []
      · subst h
        rw [List.filter_cons_of_neg (by simp), List.map_cons, List.flatten_cons, ih]
        rfl
      · rw [List.filter_cons_of_pos (by simpa using h), List.map_cons, List.map_cons,
          List.flatten_cons, List.flatten_cons, ih]
        rfl

theorem normalizeTagsArr_eq_tokens (l : List Str) :
    normalizeTagsArr l = uniqFS (tokens l) := by
  rw [normalizeTagsArr,
    lowerStr_joinSep ',' (by decide) l,
    words_joinSep ',' (by decide) (l.map lowerStr),
    List.map_map]
  rfl

/-- Normal form of the code's final filtering chain in tag(): blacklist
subtraction then stopword subtraction over the uniq'd token list. -/
theorem pipeline_normal_form (sw : List Str) (bl : List Str) (l : List Str) :
    removeStopwords sw (removeBlacklist l bl) =
      ((uniqFS (tokens l)).filter fun t => decide (t ∉ normalizeTags bl)).filter
        fun t => decide (t ∉ sw) := by
  rw [removeBlacklist, normalizeTagsArr_eq_tokens, removeStopwords, listDiff, listDiff]
  congr 1
  refine canonical_words_joinSep ' ' (by decide) fun t ht => ?_
  have := List.mem_filter.mp ht
  exact mem_tokens_canonical t (mem_uniqFS.mp this.1)

/-! ### Equation lemmas for the recursive pipeline -/

theorem tagFromFields_nil (sw : List Str) (fields : List (Str × FieldValue)) :
    tagFromFields sw [] fields = [] := by
  rw [tagFromFields]

theorem tagFromFields_cons (sw : List Str) (name : Str) (e : ExtractFn)
    (rest : List (Str × ExtractFn)) (fields : List (Str × FieldValue)) :
    tagFromFields sw ((name, e) :: rest) fields =
      (if isObjectIdF (getField fields name) then [] else
        tagFromMapField (getField fields name) e
        ++ tagFromInstanceField sw (getField fields name) e
        ++ tagFromDateField (getField fields name) e
        ++ tagFromAnyField (getField fields name) e)
      ++ tagFromFields sw rest fields := by
  rw [tagFromFields]

theorem tagCompute_eq (sw : List Str) (cfg : TagConfig) (tg : List (Str × ExtractFn))
    (tags : Option (List Str)) (fields : List (Str × FieldValue)) (explicit : List Str) :
    tagCompute sw (.mk cfg tg tags fields) explicit =
      removeStopwords sw (removeBlacklist
        (((if cfg.fresh then [] else tags.getD []) ++ explicit)
          ++ tagFromFields sw tg fields) cfg.blacklist) := by
  rw [tagCompute]

/-- Every tag computed by tag() is canonical: nonempty, word characters
only, lowercase-stable. -/
theorem tagCompute_canonical (sw : List Str) (r : Record) (explicit : List Str) :
    ∀ t ∈ tagCompute sw r explicit, isCanonicalTag t := by
  obtain ⟨cfg, tg, tags, fields⟩ := r
  rw [tagCompute_eq, pipeline_normal_form]
  intro t ht
  have h1 := (List.mem_filter.mp ht).1
  have h2 := (List.mem_filter.mp h1).1
  exact mem_tokens_canonical t (mem_uniqFS.mp h2)

/-- The tag list computed by tag() has no duplicates. -/
theorem tagCompute_nodup (sw : List Str) (r : Record) (explicit : List Str) :
    (tagCompute sw r explicit).Nodup := by
  obtain ⟨cfg, tg, tags, fields⟩ := r
  rw [tagCompute_eq, pipeline_normal_form]
  exact ((uniqFS_nodup _).filter _).filter _

/-! ### Further helper lemmas -/

theorem removeStopwords_canonical (sw : List Str) (ts : List Str)
    (h : ∀ t ∈ ts, isCanonicalTag t) :
    removeStopwords sw ts = ts.filter fun t => decide (t ∉ sw) := by
  rw [removeStopwords, listDiff, canonical_words_joinSep ' ' (by decide) h]

/-- The normalization chain tag() runs on raw candidates, exactly as the
code composes it: normalizeTags (compact, lowercase, tokenize, flatten,
uniq - performed inside removeBlacklist) followed by removeStopwords.
This is the spec's Tag Normalizer (the blacklist subtraction sitting in
between is the identity when the blacklist is empty and commutes with the
stopword subtraction). -/
def tagNormalizer (sw : List Str) (tags : List Str) : List Str :=
  removeStopwords sw (normalizeTags tags)

/-- Modelled from the claim's words, step by step in the claim's order:
drop falsy entries, lowercase every remaining entry, tokenize each entry,
flatten, remove stopword tokens, and deduplicate keeping first-seen
order. -/
def specC1Normalizer (sw : List Str) (tags : List Str) : List Str :=
  uniqFS (((((tags.filter fun t => decide (t ≠ [])).map lowerStr).map words).flatten).filter
    fun t => decide (t ∉ sw))

theorem tagNormalizer_eq_filter (sw : List Str) (l : List Str) :
    tagNormalizer sw l = (normalizeTags l).filter fun t => decide (t ∉ sw) := by
  rw [tagNormalizer]
  refine removeStopwords_canonical sw _ fun t ht => ?_
  rw [normalizeTags_eq_tokens] at ht
  exact mem_tokens_canonical t (mem_uniqFS.mp ht)

/-! ### C1 -/

/-- C1: the tag normalizer computes exactly the function described by the
claim's six steps in the claim's order (drop falsy, lowercase, tokenize,
flatten, remove stopwords, deduplicate first-seen); the empty input gives
the empty tag set.  The code performs the deduplication before the
stopword subtraction, but the two steps commute, so the computed function
is exactly the claimed one. -/
theorem claim_C1_normalizer_steps (sw : List Str) (tags : List Str) :
    tagNormalizer sw tags = specC1Normalizer sw tags ∧ tagNormalizer sw [] = [] := by
  constructor
  · rw [tagNormalizer_eq_filter, normalizeTags, specC1Normalizer, uniqFS_filter]
  · rfl

/-! ### C2 -/

/-- C2: removeBlacklist normalizes the candidate side and the blacklist
side with the same normalization function and returns their difference
(candidates minus blacklist), and in tag() the blacklist subtraction and
the stopword subtraction are two separate filter passes over the
normalized candidates, with the blacklist pass applied first. -/
theorem claim_C2_blacklist_filter (sw : List Str) (cands bl : List Str)
    (cfg : TagConfig) (tg : List (Str × ExtractFn)) (tags : Option (List Str))
    (fields : List (Str × FieldValue)) (explicit : List Str) :
    (removeBlacklist cands bl = listDiff (normalizeTags cands) (normalizeTags bl))
    ∧ (tagCompute sw (.mk cfg tg tags fields) explicit =
        ((uniqFS (tokens (((if cfg.fresh then [] else tags.getD []) ++ explicit)
            ++ tagFromFields sw tg fields))).filter
          fun t => decide (t ∉ normalizeTags cfg.blacklist)).filter
          fun t => decide (t ∉ sw)) := by
  constructor
  · rw [removeBlacklist, normalizeTagsArr_eq_tokens, ← normalizeTags_eq_tokens]
  · rw [tagCompute_eq, pipeline_normal_form]

/-! ### C3 -/

/-- C3: tag() starts its accumulator from the record's existing tag field
when fresh is off (and fresh is off by default), and from the empty list
when fresh is on - in which case the result does not depend on the
existing tag field at all; in both cases the explicit tags and the
field-derived candidates are appended before the blacklist and stopword
filtering. -/
theorem claim_C3_fresh_accumulator (sw : List Str) (cfg : TagConfig)
    (tg : List (Str × ExtractFn)) (tags : Option (List Str))
    (fields : List (Str × FieldValue)) (explicit : List Str) :
    (cfg.fresh = false →
      tagCompute sw (.mk cfg tg tags fields) explicit =
        removeStopwords sw (removeBlacklist
          ((tags.getD [] ++ explicit) ++ tagFromFields sw tg fields) cfg.blacklist))
    ∧ (cfg.fresh = true →
        (tagCompute sw (.mk cfg tg tags fields) explicit =
          removeStopwords sw (removeBlacklist
            (explicit ++ tagFromFields sw tg fields) cfg.blacklist))
        ∧ ∀ tags' : Option (List Str),
            tagCompute sw (.mk cfg tg tags' fields) explicit =
              tagCompute sw (.mk cfg tg tags fields) explicit)
    ∧ defaultTaggableOptions.fresh = false := by
  refine ⟨fun hf => ?_, fun hf => ⟨?_, fun tags' => ?_⟩, rfl⟩
  · rw [tagCompute_eq, hf]
    rfl
  · rw [tagCompute_eq, hf]
    rfl
  · rw [tagCompute_eq, tagCompute_eq, hf]
    simp

/-- Witness for C3 at concrete configurations: the default options (fresh
off) and a fresh configuration where a record with existing tags computes
the same tag set as one with no tags. -/
theorem claim_C3_fresh_accumulator_witness :
    (defaultTaggableOptions.fresh = false ∧
      tagCompute [] (.mk defaultTaggableOptions [] (some ["a".data]) []) ["b".data] =
        removeStopwords [] (removeBlacklist
          ((["a".data] ++ ["b".data]) ++ tagFromFields [] [] [])
          defaultTaggableOptions.blacklist))
    ∧ ({ defaultTaggableOptions with fresh := true }.fresh = true ∧
        tagCompute [] (.mk { defaultTaggableOptions with fresh := true } []
            (some ["a".data]) []) [] =
          tagCompute [] (.mk { defaultTaggableOptions with fresh := true } [] none []) []) := by
  constructor
  · exact ⟨rfl, ((claim_C3_fresh_accumulator [] defaultTaggableOptions []
      (some ["a".data]) [] ["b".data]).1 rfl).trans (by rw [Option.getD])⟩
  · exact ⟨rfl, (((claim_C3_fresh_accumulator []
      { defaultTaggableOptions with fresh := true } []
      (some ["a".data]) [] []).2.1 rfl).2 none).symm⟩

/-! ### C4 -/

/-- C4: untag normalizes the removal list with normalizeTags alone - which
is exactly tokenize plus lowercase plus first-seen dedup, with no blacklist
and no stopword corpus involved (normalizeTags takes neither) - and then
overwrites the tag field with the current tag field minus the normalized
removal set, touching nothing else on the record. -/
theorem claim_C4_untag (cfg : TagConfig) (tg : List (Str × ExtractFn))
    (cur : Option (List Str)) (fields : List (Str × FieldValue)) (ts : List Str) :
    (Record.untag (.mk cfg tg cur fields) ts =
      .mk cfg tg (some ((cur.getD []).filter fun t => decide (t ∉ normalizeTags ts))) fields)
    ∧ normalizeTags ts = uniqFS (tokens ts) := by
  exact ⟨rfl, normalizeTags_eq_tokens ts⟩

/-! ### C5 -/

/-- The tag-field invariant: no duplicates, and every entry is a canonical
(lowercase, word-characters-only, nonempty) single word. -/
def tagsInvariant (l : List Str) : Prop :=
  l.Nodup ∧ ∀ t ∈ l, isCanonicalTag t

/-- C5: after tag() the tag field always satisfies the invariant (no
duplicates, only lowercase single-word entries), and untag() preserves
the invariant whenever the current tag field satisfies it. -/
theorem claim_C5_invariant (sw : List Str) :
    (∀ (r : Record) (explicit : List Str),
        tagsInvariant (((Record.tag sw r explicit).tags).getD []))
    ∧ (∀ (r : Record) (ts : List Str), tagsInvariant ((r.tags).getD []) →
        tagsInvariant (((Record.untag r ts).tags).getD [])) := by
  constructor
  · intro r explicit
    obtain ⟨cfg, tg, tags, fields⟩ := r
    show tagsInvariant (tagCompute sw (.mk cfg tg tags fields) explicit)
    exact ⟨tagCompute_nodup sw _ explicit, tagCompute_canonical sw _ explicit⟩
  · intro r ts h
    obtain ⟨cfg, tg, cur, fields⟩ := r
    show tagsInvariant (listDiff (cur.getD []) (normalizeTags ts))
    exact ⟨h.1.filter _, fun t ht => h.2 t (List.mem_filter.mp ht).1⟩

/-- Witness for C5: a record whose tag field is the canonical singleton
js satisfies the invariant, and untagging nodejs from it preserves it. -/
theorem claim_C5_invariant_witness :
    tagsInvariant (((Record.tag [] (.mk defaultTaggableOptions [] none []) ["Go".data]).tags).getD [])
    ∧ tagsInvariant
        (((Record.untag (.mk defaultTaggableOptions [] (some ["js".data]) [])
            ["nodejs".data]).tags).getD []) := by
  refine ⟨(claim_C5_invariant []).1 _ _, (claim_C5_invariant []).2 _ _ ?_⟩
  show tagsInvariant ["js".data]
  refine ⟨by decide, ?_⟩
  intro t ht
  rw [List.mem_singleton] at ht
  subst ht
  exact ⟨by decide, by decide⟩

/-! ### C6 -/

theorem pipe_filter_form (sw bl : List Str) (l : List Str) :
    removeStopwords sw (removeBlacklist l bl) =
      uniqFS ((tokens l).filter
        fun t => decide (t ∉ sw) && decide (t ∉ normalizeTags bl)) := by
  rw [pipeline_normal_form, ← uniqFS_filter, ← uniqFS_filter, List.filter_filter]

theorem pipe_absorb (sw bl : List Str) (z cands : List Str) :
    removeStopwords sw (removeBlacklist
      (removeStopwords sw (removeBlacklist (z ++ cands) bl) ++ cands) bl)
    = removeStopwords sw (removeBlacklist (z ++ cands) bl) := by
  set P : Str → Bool := fun t => decide (t ∉ sw) && decide (t ∉ normalizeTags bl) with hPdef
  set pw := removeStopwords sw (removeBlacklist (z ++ cands) bl) with hpw
  have hPW : pw = uniqFS ((tokens (z ++ cands)).filter P) := pipe_filter_form sw bl _
  have hcanon : ∀ t ∈ pw, isCanonicalTag t := by
    intro t ht
    rw [hPW] at ht
    exact mem_tokens_canonical t (List.mem_filter.mp (mem_uniqFS.mp ht)).1
  have hfilterself : pw.filter P = pw := by
    conv_lhs => rw [hPW]
    rw [← uniqFS_filter, List.filter_filter]
    simp only [Bool.and_self]
    exact hPW.symm
  calc removeStopwords sw (removeBlacklist (pw ++ cands) bl)
      = uniqFS ((tokens (pw ++ cands)).filter P) := pipe_filter_form sw bl _
    _ = uniqFS ((pw ++ tokens cands).filter P) := by
        rw [tokens_append, canonical_tokens_id hcanon]
    _ = uniqFS (pw.filter P ++ (tokens cands).filter P) := by rw [List.filter_append]
    _ = uniqFS (uniqFS ((tokens (z ++ cands)).filter P) ++ (tokens cands).filter P) := by
        rw [hfilterself, hPW]
    _ = uniqFS ((tokens (z ++ cands)).filter P ++ (tokens cands).filter P) :=
        uniqFS_absorb _ _
    _ = uniqFS ((tokens (z ++ cands)).filter P) := by
        refine uniqFS_append_of_sub _ _ fun x hx => ?_
        have hm := List.mem_filter.mp hx
        refine List.mem_filter.mpr ⟨?_, hm.2⟩
        rw [tokens_append]
        exact List.mem_append_right _ hm.1
    _ = pw := hPW.symm

/-- C6: tag() is idempotent on the tag field - calling tag() twice in a
row with no explicit tags (the record's other fields being untouched by
tag()) leaves the tag field exactly as after the first call. -/
theorem claim_C6_idempotent (sw : List Str) (r : Record) :
    (Record.tag sw (Record.tag sw r []) []).tags = (Record.tag sw r []).tags := by
  obtain ⟨cfg, tg, tags, fields⟩ := r
  show some (tagCompute sw (.mk cfg tg
      (some (tagCompute sw (.mk cfg tg tags fields) [])) fields) []) = _
  congr 1
  by_cases hf : cfg.fresh
  · simp only [tagCompute_eq, hf, if_true]
  · have hf' : cfg.fresh = false := by simpa using hf
    simp only [tagCompute_eq, hf', Bool.false_eq_true, if_false, Option.getD_some,
      List.append_nil]
    exact pipe_absorb sw cfg.blacklist (tags.getD []) (tagFromFields sw tg fields)

/-! ### C7 -/

theorem tagFromInstanceField_dateV (sw : List Str) (ext : ExtractFn) (y m d : Nat) :
    tagFromInstanceField sw (.dateV y m d) ext = [] := by
  rw [tagFromInstanceField]
  exact fun r h => FieldValue.noConfusion h

/-- C8: a taggable date field is formatted into one candidate phrase under
the default full-weekday full-month year pattern; for the date 2000-01-01
the phrase is Saturday January 2000 (the weekday computed from the
calendar), so after tag() the tag set contains 2000, january and saturday
(provided neither the stopword corpus nor the blacklist claims them). -/
theorem claim_C8_date_field (sw : List Str) (cfg : TagConfig) (name : Str)
    (tags : Option (List Str)) (fields : List (Str × FieldValue)) (explicit : List Str)
    (hdate : getField fields name = .dateV 2000 1 1)
    (h2000s : "2000".data ∉ sw) (hjans : "january".data ∉ sw)
    (hsats : "saturday".data ∉ sw)
    (h2000b : "2000".data ∉ normalizeTags cfg.blacklist)
    (hjanb : "january".data ∉ normalizeTags cfg.blacklist)
    (hsatb : "saturday".data ∉ normalizeTags cfg.blacklist) :
    (∀ (y m d : Nat) (ext : ExtractFn),
        tagFromDateField (.dateV y m d) ext = ext (.strV (formatDate y m d)))
    ∧ formatDate 2000 1 1 = "Saturday January 2000".data
    ∧ "2000".data ∈ tagCompute sw (.mk cfg [(name, wordsExt)] tags fields) explicit
    ∧ "january".data ∈ tagCompute sw (.mk cfg [(name, wordsExt)] tags fields) explicit
    ∧ "saturday".data ∈ tagCompute sw (.mk cfg [(name, wordsExt)] tags fields) explicit := by
  have hcands : tagFromFields sw [(name, wordsExt)] fields
      = ["Saturday".data, "January".data, "2000".data] := by
    rw [tagFromFields_cons, hdate, tagFromFields_nil, tagFromInstanceField_dateV]
    simp only [isObjectIdF, Bool.false_eq_true, if_false, tagFromMapField,
      tagFromDateField, tagFromAnyField, List.nil_append, List.append_nil]
    decide
  refine ⟨fun y m d ext => rfl, by decide, ?_, ?_, ?_⟩ <;>
  · rw [tagCompute_eq, pipe_filter_form, hcands]
    refine mem_uniqFS.mpr (List.mem_filter.mpr ⟨?_, ?_⟩)
    · rw [tokens_append]
      refine List.mem_append_right _ ?_
      decide
    · simp [h2000s, hjans, hsats, h2000b, hjanb, hsatb]

/-- Witness for C8: the concrete record of the repository's test (a dob
field valued 2000-01-01) with an empty corpus and the default options. -/
theorem claim_C8_date_field_witness :
    getField [("dob".data, FieldValue.dateV 2000 1 1)] "dob".data = FieldValue.dateV 2000 1 1
    ∧ "saturday".data ∈ tagCompute [] (.mk defaultTaggableOptions [("dob".data, wordsExt)]
        none [("dob".data, FieldValue.dateV 2000 1 1)]) [] := by
  refine ⟨rfl, (claim_C8_date_field [] defaultTaggableOptions "dob".data none
    [("dob".data, FieldValue.dateV 2000 1 1)] [] rfl ?_ ?_ ?_ ?_ ?_ ?_).2.2.2.2⟩ <;> decide

/-! ### C9 -/

theorem applyTrace_reads (r : Record) :
    ∀ l : List Action, (∀ a ∈ l, isWriteA a = false) → applyTrace r l = r
  | [], _ => rfl
  | a :: rest, h => by
      cases a with
      | readA p =>
          show applyTrace (applyAction r (.readA p)) rest = r
          exact applyTrace_reads r rest fun a ha => h a (List.mem_cons_of_mem _ ha)
      | writeA p v => exact absurd (h _ (List.mem_cons_self _ _)) (by simp [isWriteA])

theorem take_append_left {α : Type _} :
    ∀ (l m : List α) (k : Nat), k ≤ l.length → (l ++ m).take k = l.take k
  | _, _, 0, _ => by simp
  | [], _, k + 1, h => by simp at h
  | a :: rest, m, k + 1, h => by
      simp only [List.cons_append, List.take_succ_cons]
      rw [take_append_left rest m k (by simpa using h)]

theorem filter_isWriteA_map_readA (l : List (Str × ExtractFn)) :
    (l.map fun e => Action.readA e.1).filter isWriteA = [] := by
  induction l with
  | nil => rfl
  | cons e rest ih =>
      rw [List.map_cons, List.filter_cons_of_neg (by simp [isWriteA])]
      exact ih

/-- C9: the write to the tag field is the only write tag() performs on the
record, it is the last of tag()'s actions, executing any proper prefix of
the action trace (extraction failing partway) leaves the record exactly as
it was, and executing the full trace performs exactly the tag()
mutation. -/
theorem claim_C9_atomic_write (sw : List Str) (r : Record) (explicit : List Str) :
    ((tagTrace sw r explicit).filter isWriteA =
      [Action.writeA r.cfg.path (tagCompute sw r explicit)])
    ∧ ((tagTrace sw r explicit).getLast? =
        some (Action.writeA r.cfg.path (tagCompute sw r explicit)))
    ∧ (∀ k, k < (tagTrace sw r explicit).length →
        applyTrace r ((tagTrace sw r explicit).take k) = r)
    ∧ applyTrace r (tagTrace sw r explicit) = Record.tag sw r explicit := by
  obtain ⟨cfg, tg, tags, fields⟩ := r
  have htr : tagTrace sw (.mk cfg tg tags fields) explicit =
      (Action.readA cfg.path :: tg.map fun e => Action.readA e.1)
        ++ [Action.writeA cfg.path
            (tagCompute sw (.mk cfg tg tags fields) explicit)] := by
    rw [tagTrace, List.cons_append]
  have hreads : ∀ a ∈ (Action.readA cfg.path :: tg.map fun e => Action.readA e.1),
      isWriteA a = false := by
    intro a ha
    rcases List.mem_cons.mp ha with rfl | ha
    · rfl
    · obtain ⟨e, _, rfl⟩ := List.mem_map.mp ha
      rfl
  refine ⟨?_, ?_, ?_, ?_⟩
  · rw [htr, List.filter_append, List.filter_cons_of_neg (by simp [isWriteA]),
      filter_isWriteA_map_readA, List.nil_append,
      List.filter_cons_of_pos (by simp [isWriteA]), List.filter_nil]
    rfl
  · rw [htr, List.getLast?_concat]
    rfl
  · intro k hk
    rw [htr] at hk ⊢
    rw [List.length_append, List.length_singleton] at hk
    rw [take_append_left _ _ k (by omega)]
    exact applyTrace_reads _ _ fun a ha => hreads a (List.take_subset k _ ha)
  · rw [htr, applyTrace, List.foldl_append]
    rw [show List.foldl applyAction (Record.mk cfg tg tags fields)
        (Action.readA cfg.path :: tg.map fun e => Action.readA e.1)
        = Record.mk cfg tg tags fields from applyTrace_reads _ _ hreads]
    rfl

/-- Witness for C9: on a concrete record, stopping before any action of
the trace leaves the record untouched. -/
theorem claim_C9_atomic_write_witness :
    0 < (tagTrace [] (.mk defaultTaggableOptions [] none []) []).length
    ∧ applyTrace (.mk defaultTaggableOptions [] none [])
        ((tagTrace [] (.mk defaultTaggableOptions [] none []) []).take 0)
      = Record.mk defaultTaggableOptions [] none [] := by
  have h : 0 < (tagTrace [] (.mk defaultTaggableOptions [] none []) []).length := by
    rw [tagTrace]
    simp
  exact ⟨h, (claim_C9_atomic_write [] (.mk defaultTaggableOptions [] none []) []).2.2.1 0 h⟩

/-! ### C10 -/

/-- C10: collectTaggables never registers the tags path itself, even when
that path is marked taggable in the schema; and tag derivation reads field
values only at registry paths - two field sets agreeing on every registry
path produce identical candidates - so the tag field is never read back as
a candidate source through the registry. -/
theorem claim_C10_registry_excludes_tags_path (schema : List SchemaPath) (tagsPath : Str) :
    (∀ e ∈ collectTaggables schema tagsPath, e.1 ≠ tagsPath)
    ∧ (∀ (sw : List Str) (tg : List (Str × ExtractFn))
        (fields1 fields2 : List (Str × FieldValue)),
        (∀ e ∈ tg, getField fields1 e.1 = getField fields2 e.1) →
        tagFromFields sw tg fields1 = tagFromFields sw tg fields2) := by
  constructor
  · induction schema with
    | nil => intro e he; simp [collectTaggables] at he
    | cons p rest ih =>
        intro e he
        rcases hp : p.taggable with _ | _ | f <;>
          simp only [collectTaggables, hp] at he
        · exact ih e he
        · by_cases hn : p.name = tagsPath
          · rw [if_pos hn] at he
            exact ih e he
          · rw [if_neg hn] at he
            rcases List.mem_cons.mp he with rfl | he
            · exact hn
            · exact ih e he
        · by_cases hn : p.name = tagsPath
          · rw [if_pos hn] at he
            exact ih e he
          · rw [if_neg hn] at he
            rcases List.mem_cons.mp he with rfl | he
            · exact hn
            · exact ih e he
  · intro sw tg fields1 fields2 h
    induction tg with
    | nil => rw [tagFromFields_nil, tagFromFields_nil]
    | cons e rest ih =>
        obtain ⟨name, ext⟩ := e
        rw [tagFromFields_cons, tagFromFields_cons,
          h (name, ext) (List.mem_cons_self _ _),
          ih fun e' he' => h e' (List.mem_cons_of_mem _ he')]

/-- Witness for C10: a schema marking one name field taggable registers a
path different from tags, and candidate mining is unchanged by the
presence of a tags field outside the registry. -/
theorem claim_C10_registry_excludes_tags_path_witness :
    (("name".data, wordsExt).1 ≠ "tags".data)
    ∧ tagFromFields [] [("a".data, wordsExt)] [("a".data, FieldValue.strV "x".data)]
        = tagFromFields [] [("a".data, wordsExt)]
            [("a".data, FieldValue.strV "x".data),
             ("tags".data, FieldValue.strV "zz".data)] := by
  constructor
  · exact (claim_C10_registry_excludes_tags_path
      [⟨"name".data, .marked⟩] "tags".data).1 ("name".data, wordsExt)
      (List.mem_singleton.mpr rfl)
  · refine (claim_C10_registry_excludes_tags_path [] "tags".data).2 [] _ _ _ ?_
    intro e he
    rcases List.mem_singleton.mp he with rfl
    rfl

end Taggable
